import Mathlib

/-!
# Verification of the `html-text-highlighting` library

Shallow embedding of the TypeScript source (`challenge.ts`).  Text is
modelled as `List Char` (one entry per UTF-16 code unit of the inputs we
consider, which are ASCII in every concrete scenario), JavaScript numbers
occurring as range endpoints as `Int`.  JavaScript string primitives
(`slice`, `indexOf`, `trim`) are embedded with their ECMAScript clamping
semantics; the whitespace class is modelled by its ASCII subset, which is
the only part exercised by the library and its tests.
-/

namespace HtmlHighlighting

/-- A `Range` is the pair `[start, end]` of the source's `Range` type. -/
abbrev Range := Int × Int

/-- The apostrophe character (kept out of literals for hygiene). -/
def aposC : Char := Char.ofNat 39

/-- ECMAScript index clamping used by `String.prototype.slice`: negative
indices count from the end, and the result is clamped into `[0, n]`. -/
def jsClamp (x : Int) (n : Nat) : Nat :=
  if x < 0 then ((n : Int) + x).toNat else min x.toNat n

/-- ECMAScript position clamping used by `String.prototype.indexOf`: the
position is clamped into `[0, n]` — a negative position becomes 0 (unlike
`slice`, which counts negative indices from the end). -/
def jsClampPos (x : Int) (n : Nat) : Nat :=
  if x < 0 then 0 else min x.toNat n

/-- Embedding of ECMAScript `text.slice(a, b)` on `List Char`. -/
def jsSlice (t : List Char) (a b : Int) : List Char :=
  (t.take (jsClamp b t.length)).drop (jsClamp a t.length)

/-- Embedding of ECMAScript `text.slice(a)` (a missing second argument
means the string's length). -/
def jsSliceFrom (t : List Char) (a : Int) : List Char :=
  jsSlice t a t.length

/-- The ASCII part of the ECMAScript whitespace class `\s` (space, tab,
line feed, vertical tab, form feed, carriage return). -/
def isWs (c : Char) : Bool :=
  c = ' ' || c = '\t' || c = '\n' || c = '\x0b' || c = '\x0c' || c = '\r'

/-- Embedding of `String.prototype.trim`: drop whitespace from both ends. -/
def trimL (t : List Char) : List Char :=
  ((t.dropWhile isWs).reverse.dropWhile isWs).reverse

/-- Does `pat` occur at the very start of `s`?  (Explicit list-prefix
test, used to embed `indexOf` and anchored regular expressions.) -/
def beginsWith : List Char → List Char → Bool
  | [], _ => true
  | _ :: _, [] => false
  | p :: ps, c :: cs => p = c && beginsWith ps cs

/-- One step of `replace(/\s+/g, " ")`: collapse every run of whitespace
to a single space.  The Boolean records whether the previous character
was part of a whitespace run already rewritten. -/
def collapseWsAux : List Char → Bool → List Char
  | [], _ => []
  | c :: rest, inRun =>
    if isWs c then
      if inRun then collapseWsAux rest true else ' ' :: collapseWsAux rest true
    else c :: collapseWsAux rest false

/-- Embedding of the source's `s.replace(/\s+/g, " ")`. -/
def collapseWs (s : List Char) : List Char := collapseWsAux s false

/-- Scan loop of `text.indexOf(pat, i)`: first position `≥ i` (as absolute
index, the list argument being the tail of the text starting at `i`) where
`pat` occurs. -/
def jsIndexOfAux (pat : List Char) : List Char → Nat → Option Nat
  | [], i => if beginsWith pat [] then some i else none
  | c :: rest, i => if beginsWith pat (c :: rest) then some i else jsIndexOfAux pat rest (i + 1)

/-- Embedding of ECMAScript `text.indexOf(pat, frm)`, as an `Option Nat`
(`none` for the JavaScript result `-1`). -/
def jsIndexOf (text pat : List Char) (frm : Int) : Option Nat :=
  jsIndexOfAux pat (text.drop (jsClampPos frm text.length)) (jsClampPos frm text.length)

/-- Embedding of `text.indexOf(pat, frm)` with the JavaScript `-1` convention. -/
def jsIndexOfInt (text pat : List Char) (frm : Int) : Int :=
  match jsIndexOf text pat frm with
  | some j => (j : Int)
  | none => -1

/-! ## Range pipeline (`normalizeRanges`, `removeDuplicates`, `mergeRanges`) -/

/-- The order imposed by the comparator `(a, b) => a[0] - b[0] || a[1] - b[1]`
of `normalizeRanges`: ascending by start, ties broken by end. -/
def rangeLE (a b : Range) : Prop :=
  a.1 < b.1 ∨ (a.1 = b.1 ∧ a.2 ≤ b.2)

instance : DecidableRel rangeLE := fun a b => by
  unfold rangeLE; infer_instance

instance : IsTotal Range rangeLE := ⟨by intro a b; unfold rangeLE; omega⟩

instance : IsTrans Range rangeLE := ⟨by intro a b c; unfold rangeLE; omega⟩

/-- Source function `normalizeRanges`: replace each pair by `(min, max)`
and sort with the comparator above.  `Array.prototype.sort` is a stable sort (ECMAScript
2019), embedded as Mathlib's stable `insertionSort`. -/
def normalizeRanges (rs : List Range) : List Range :=
  List.insertionSort rangeLE (rs.map (fun r => (min r.1 r.2, max r.1 r.2)))

/-- Source function `removeDuplicates`: the source keys each range by
`JSON.stringify` in a `Map`, which keeps the first occurrence's position and drops structural
duplicates; embedded with an accumulator of ranges already seen. -/
def removeDuplicatesAux (seen : List Range) : List Range → List Range
  | [] => []
  | r :: rest =>
    if r ∈ seen then removeDuplicatesAux seen rest
    else r :: removeDuplicatesAux (r :: seen) rest

/-- Source function `removeDuplicates` (seen-set initially empty). -/
def removeDuplicates (rs : List Range) : List Range := removeDuplicatesAux [] rs

/-- The body of the `reduce` inside `mergeRanges`: merge the next range
into the accumulator when it overlaps or touches the last merged one. -/
def mergeStep (merged : List Range) (r : Range) : List Range :=
  match merged.getLast? with
  | none => [r]
  | some last =>
    if r.1 ≤ last.2 then merged.dropLast ++ [(last.1, max last.2 r.2)]
    else merged ++ [r]

/-- Source function `mergeRanges`: early return `[]` on empty input, then
the `reduce` with `mergeStep`. -/
def mergeRanges (rs : List Range) : List Range :=
  if rs = [] then [] else rs.foldl mergeStep []

/-- The range-processing pipeline of `highlightTextRanges`:
`[normalizeRanges, removeDuplicates, mergeRanges].reduce((r, fn) => fn(r), ranges)`. -/
def processRanges (rs : List Range) : List Range :=
  mergeRanges (removeDuplicates (normalizeRanges rs))

/-! ## `escapeHtml` -/

/-- Replacement for one character under `replace(/[&<>"']/g, m => htmlEscapes[m])`. -/
def escChar (c : Char) : List Char :=
  if c = '&' then "&amp;".data
  else if c = '<' then "&lt;".data
  else if c = '>' then "&gt;".data
  else if c = '"' then "&quot;".data
  else if c = aposC then "&#39;".data
  else [c]

/-- Source function `escapeHtml`: a single left-to-right pass replacing
each of the five special characters by its entity. -/
def escapeHtml (t : List Char) : List Char := (t.map escChar).flatten

/-! ## `extractTextSegment` -/

/-- ECMAScript `\w`: `[A-Za-z0-9_]`. -/
def isWordChar (c : Char) : Bool := c.isAlpha || c.isDigit || c = '_'

/-- The punctuation class `[.,!?]` of the two context regexes. -/
def isPunctCh (c : Char) : Bool := c = '.' || c = ',' || c = '!' || c = '?'

/-- Start index of the last maximal run of word characters: the position at
which the leftmost match of `/(?:\b\w+[.,!?]*)\W*$/` begins.  (A match must
end at `$` after consuming only non-word characters past the word run, so
only the last run can start one, and `\b\w+` anchors it at the run start.) -/
def lastRunStartAux : List Char → Nat → Bool → Option Nat → Option Nat
  | [], _, _, acc => acc
  | c :: rest, i, prevW, acc =>
    lastRunStartAux rest (i + 1) (isWordChar c)
      (if isWordChar c && !prevW then some i else acc)

/-- Embedding of `beforeText.match(/(?:\b\w+[.,!?]*)\W*$/)` followed by
`match[0].trim()`: the match, when it exists, is the whole tail of
`beforeText` from the start of its last word run. -/
def segPreviousOf (before : List Char) : Option (List Char) :=
  (lastRunStartAux before 0 false none).map (fun i => trimL (before.drop i))

/-- Embedding of `afterText.match(/^\W*([.,!?])|^\W*(\w+)/)` with the source's
`afterMatch?.[1] || null` / `afterMatch?.[2] || null` selection.
Alternative 1 backtracks the greedy `\W*`, so it captures the *last*
`[.,!?]` character inside the maximal leading non-word run; otherwise
alternative 2 captures the first word run. -/
def segNextOf (afterT : List Char) : Option (List Char) :=
  let pre := afterT.takeWhile (fun c => !isWordChar c)
  match (pre.filter isPunctCh).getLast? with
  | some p => some [p]
  | none =>
    let w := (afterT.dropWhile (fun c => !isWordChar c)).takeWhile isWordChar
    if w = [] then none else some w

/-- Embedding of `text.slice(start, end).trim()` — the `target` field. -/
def segTarget (text : List Char) (r : Range) : List Char := trimL (jsSlice text r.1 r.2)

/-- The `previous` field: context word before the highlight. -/
def segPrev (text : List Char) (r : Range) : Option (List Char) :=
  segPreviousOf (jsSlice text 0 r.1)

/-- The `next` field: word or punctuation after the highlight. -/
def segNext (text : List Char) (r : Range) : Option (List Char) :=
  segNextOf (jsSliceFrom text r.2)

/-- The context string built by `extractTextSegment` *before* the
`hasMoreContent` ellipsis and the final whitespace collapsing. -/
def rawContext (text : List Char) (r : Range) (i : Nat) : List Char :=
  (if 0 < i then "[...] ".data else []) ++
  (match segPrev text r with | some p => p | none => []) ++
  " <em>".data ++ segTarget text r ++ "</em>".data ++
  (match segNext text r with
   | some n => if n.any isPunctCh then n else ' ' :: n
   | none => [])

/-- Embedding of `const hasMoreContent = next ?
text.slice(text.indexOf(next, end) + next.length).trim().length > 0 : false`. -/
def hasMoreContent (text : List Char) (r : Range) : Bool :=
  match segNext text r with
  | none => false
  | some n =>
    decide (0 < (trimL (jsSliceFrom text (jsIndexOfInt text n r.2 + n.length))).length)

/-- The `ExtractedSegment` record of `extracted-text.interface`. -/
structure ExtractedSegment where
  range : Range
  target : List Char
  previous : Option (List Char)
  next : Option (List Char)
  context : List Char
deriving DecidableEq

/-- Source function `extractTextSegment`. -/
def extractTextSegment (text : List Char) (r : Range) (i : Nat) : ExtractedSegment :=
  { range := r
    target := segTarget text r
    previous := segPrev text r
    next := segNext text r
    context :=
      trimL (collapseWs (rawContext text r i ++
        (if hasMoreContent text r then " [...] ".data else []))) }

/-! ## `highlightText` (non-excerpt mode) -/

/-- The loop of `highlightText`: `lastIndex` is the cursor, each range with
a non-empty slice emits the gap, the wrapped slice, and advances the
cursor; the text after the final cursor position is appended at the end. -/
def highlightGo (text : List Char) (lastIndex : Int) : List Range → List Char
  | [] => jsSliceFrom text lastIndex
  | r :: rest =>
    if jsSlice text r.1 r.2 = [] then highlightGo text lastIndex rest
    else
      jsSlice text lastIndex r.1 ++ "<em>".data ++ jsSlice text r.1 r.2 ++ "</em>".data ++
        highlightGo text r.2 rest

/-- Source function `highlightText` (with its empty-input guard). -/
def highlightText (text : List Char) (ranges : List Range) : List Char :=
  if text = [] ∨ ranges = [] then [] else highlightGo text 0 ranges

/-! ## `excerptHighlighting` -/

/-- Embedding of `nextSegment.context.replace(/^\[...\]\s+/, " ")`: a leading
`[`‑any‑any‑any‑`]` (dots do not match line terminators) followed by at
least one whitespace character is rewritten to a single space. -/
def stripLeadingEllipsis (s : List Char) : List Char :=
  match s with
  | c0 :: a :: b :: c :: c4 :: d :: rest =>
    if c0 = '[' ∧ c4 = ']' ∧ (a ≠ '\n' ∧ a ≠ '\r') ∧ (b ≠ '\n' ∧ b ≠ '\r') ∧
        (c ≠ '\n' ∧ c ≠ '\r') ∧ isWs d then
      ' ' :: (d :: rest).dropWhile isWs
    else c0 :: a :: b :: c :: c4 :: d :: rest
  | _ => s

/-- The `reduce` of `excerptHighlighting`: append the current context and
rewrite the following segment's context (when it exists) before it is
consumed.  The rewritten head context is carried as an accumulator. -/
def combineContextsAux (cur : List Char) : List ExtractedSegment → List Char
  | [] => cur
  | t :: rest => cur ++ combineContextsAux (stripLeadingEllipsis t.context) rest

/-- Combined contexts of all segments (the value of the `reduce`). -/
def combineContexts : List ExtractedSegment → List Char
  | [] => []
  | s :: rest => combineContextsAux s.context rest

/-- Embedding of `ranges.map((range, index) => extractTextSegment(text, range, index))`. -/
def mkSegmentsAux (text : List Char) (i : Nat) : List Range → List ExtractedSegment
  | [] => []
  | r :: rest => extractTextSegment text r i :: mkSegmentsAux text (i + 1) rest

/-- The segments of `excerptHighlighting`. -/
def mkSegments (text : List Char) (rs : List Range) : List ExtractedSegment :=
  mkSegmentsAux text 0 rs

/-- Source function `excerptHighlighting`. -/
def excerptHighlighting (text : List Char) (ranges : List Range) : List Char :=
  if text = [] ∨ ranges = [] then []
  else trimL (combineContexts (mkSegments text ranges))

/-! ## `highlightTextRanges` (the facade) -/

/-- The boundary fix-up of the facade: if the first processed range's end
equals the original text length, rewrite it to the escaped text length.
(`processedRanges[0][1] = escapedText.length`.) -/
def applyEndFixup (p : List Range) (origLen escLen : Nat) : List Range :=
  match p with
  | [] => []
  | (s, e) :: rest => (if e = (origLen : Int) then (s, (escLen : Int)) else (s, e)) :: rest

/-- Source function `highlightTextRanges`, on `List Char`.  The two `throw`
statements are embedded as `Except.error` with the thrown messages. -/
def highlightTextRangesL (textToHighlight : List Char) (ranges : List Range)
    (createExcerpt : Bool) : Except (List Char) (List Char) :=
  if textToHighlight = [] then .error "No text provided to highlight".data
  else if ranges = [] then .error "No ranges provided for highlighting".data
  else
    let processed := processRanges ranges
    let escapedText := trimL (escapeHtml textToHighlight)
    let processed' := applyEndFixup processed textToHighlight.length escapedText.length
    .ok (if createExcerpt then excerptHighlighting escapedText processed'
         else highlightText escapedText processed')

/-- String-level wrapper of the facade. -/
def highlightTextRanges (textToHighlight : String) (ranges : List Range)
    (createExcerpt : Bool) : Except String String :=
  match highlightTextRangesL textToHighlight.data ranges createExcerpt with
  | .ok l => .ok (String.mk l)
  | .error e => .error (String.mk e)


/-! ## Basic facts about the embedded string primitives -/

theorem jsClamp_le (x : Int) (n : Nat) : jsClamp x n ≤ n := by
  unfold jsClamp; split <;> omega

theorem jsClamp_zero (n : Nat) : jsClamp 0 n = 0 := by
  unfold jsClamp; split <;> omega

theorem jsSlice_length (t : List Char) (a b : Int) :
    (jsSlice t a b).length = jsClamp b t.length - jsClamp a t.length := by
  unfold jsSlice
  have hb := jsClamp_le b t.length
  simp only [List.length_drop, List.length_take]
  omega

/-! ## Non-emptiness of the range pipeline -/

theorem removeDuplicatesAux_ne_nil (seen : List Range) (r : Range) (rest : List Range)
    (h : r ∉ seen) : removeDuplicatesAux seen (r :: rest) ≠ [] := by
  unfold removeDuplicatesAux
  simp [h]

theorem foldl_mergeStep_ne_nil (l : List Range) :
    ∀ acc : List Range, acc ≠ [] → l.foldl mergeStep acc ≠ [] := by
  induction l with
  | nil => intro acc h; simpa using h
  | cons r rest ih =>
    intro acc h
    rw [List.foldl_cons]
    apply ih
    unfold mergeStep
    split
    · simp
    · split <;> simp

theorem mergeRanges_ne_nil (rs : List Range) (h : rs ≠ []) : mergeRanges rs ≠ [] := by
  unfold mergeRanges
  rw [if_neg h]
  match rs with
  | r :: rest =>
    rw [List.foldl_cons]
    apply foldl_mergeStep_ne_nil
    unfold mergeStep
    simp

theorem normalizeRanges_length (rs : List Range) :
    (normalizeRanges rs).length = rs.length := by
  unfold normalizeRanges
  rw [(List.perm_insertionSort rangeLE _).length_eq, List.length_map]

theorem processRanges_ne_nil (rs : List Range) (h : rs ≠ []) : processRanges rs ≠ [] := by
  unfold processRanges
  apply mergeRanges_ne_nil
  have hn : normalizeRanges rs ≠ [] := by
    intro hc
    have := normalizeRanges_length rs
    rw [hc] at this
    exact h (List.eq_nil_of_length_eq_zero this.symm)
  match hm : normalizeRanges rs with
  | [] => exact absurd hm hn
  | r :: rest =>
    unfold removeDuplicates
    exact removeDuplicatesAux_ne_nil [] r rest (by simp)

theorem applyEndFixup_ne_nil (p : List Range) (o e : Nat) (h : p ≠ []) :
    applyEndFixup p o e ≠ [] := by
  match p with
  | (s, en) :: rest => unfold applyEndFixup; simp

/-! ## Claim C3: facade error handling -/

/-- C3.  `highlightTextRanges` fails (with the source's two error messages,
the empty-text check coming first) exactly when the text is empty or the
range list is empty; on every other input, of whatever shape the ranges
are, it returns a string. -/
theorem C3_facade_errors (t : List Char) (rs : List Range) (ex : Bool) :
    ((∃ out, highlightTextRangesL t rs ex = .ok out) ↔ (t ≠ [] ∧ rs ≠ [])) ∧
    (t = [] → highlightTextRangesL t rs ex = .error "No text provided to highlight".data) ∧
    (t ≠ [] → rs = [] → highlightTextRangesL t rs ex = .error "No ranges provided for highlighting".data) := by
  unfold highlightTextRangesL
  by_cases ht : t = [] <;> by_cases hr : rs = [] <;> simp [ht, hr]

/-- Witness for C3 at concrete inputs: `highlight("Text", [[0,4]])`
succeeds, and the two scenario inputs of the spec fail. -/
theorem C3_facade_errors_witness :
    (∃ out, highlightTextRangesL "Text".data [(0, 4)] false = .ok out) ∧
    highlightTextRangesL [] [(0, 4)] false = .error "No text provided to highlight".data ∧
    highlightTextRangesL "Text".data [] false = .error "No ranges provided for highlighting".data := by
  refine ⟨?_, ?_, ?_⟩
  · exact (C3_facade_errors "Text".data [(0, 4)] false).1.mpr (by simp)
  · exact (C3_facade_errors [] [(0, 4)] false).2.1 rfl
  · exact (C3_facade_errors "Text".data [] false).2.2 (by simp) rfl

/-! ## Claim C4: the excerpt-mode scenario -/

/-- C4.  Excerpt mode on the spec's scenario text and ranges produces
exactly the documented string. -/
theorem C4_excerpt_scenario :
    highlightTextRanges "Hello world! This is a sample text for testing purposes."
        [(6, 11), (35, 38)] true =
      .ok "Hello <em>world</em>! [...] text <em>for</em> testing [...]" := by
  rfl


/-! ## Claim C5: the boundary fix-up touches only the first range -/

theorem facade_ok (t : List Char) (rs : List Range) (ex : Bool)
    (h1 : t ≠ []) (h2 : rs ≠ []) :
    highlightTextRangesL t rs ex =
      .ok (if ex then
            excerptHighlighting (trimL (escapeHtml t))
              (applyEndFixup (processRanges rs) t.length (trimL (escapeHtml t)).length)
           else
            highlightText (trimL (escapeHtml t))
              (applyEndFixup (processRanges rs) t.length (trimL (escapeHtml t)).length)) := by
  unfold highlightTextRangesL
  rw [if_neg h1, if_neg h2]

/-- C5.  The facade dispatches on exactly the fix-up-adjusted range list,
and `applyEndFixup` rewrites the first processed range's end to the escaped
length when (and only when) its end equals the original text length, while
the tail of the processed list — every other range — is returned unchanged. -/
theorem C5_fixup_first_only (t : List Char) (rs : List Range) (ex : Bool)
    (h1 : t ≠ []) (h2 : rs ≠ []) :
    (highlightTextRangesL t rs ex =
      .ok (if ex then
            excerptHighlighting (trimL (escapeHtml t))
              (applyEndFixup (processRanges rs) t.length (trimL (escapeHtml t)).length)
           else
            highlightText (trimL (escapeHtml t))
              (applyEndFixup (processRanges rs) t.length (trimL (escapeHtml t)).length))) ∧
    (∀ p : List Range, ∀ o e : Nat, (applyEndFixup p o e).tail = p.tail) ∧
    (∀ (s en : Int) (rest : List Range) (o e : Nat), en = (o : Int) →
        applyEndFixup ((s, en) :: rest) o e = (s, (e : Int)) :: rest) ∧
    (∀ (s en : Int) (rest : List Range) (o e : Nat), en ≠ (o : Int) →
        applyEndFixup ((s, en) :: rest) o e = (s, en) :: rest) := by
  refine ⟨facade_ok t rs ex h1 h2, ?_, ?_, ?_⟩
  · intro p o e
    cases p with
    | nil => rfl
    | cons r rest => rfl
  · intro s en rest o e h
    simp only [applyEndFixup]
    rw [if_pos h]
  · intro s en rest o e h
    simp only [applyEndFixup]
    rw [if_neg h]

/-- Witness for C5: on text `"ab&"` (length 3, escaped-and-trimmed length 7)
with processed ranges `[(0, 3), (5, 9)]`, the fix-up rewrites the first
range to `(0, 7)` and leaves `(5, 9)` unchanged. -/
theorem C5_fixup_first_only_witness :
    applyEndFixup [(0, 3), (5, 9)] ("ab&".data.length) ((trimL (escapeHtml "ab&".data)).length)
      = [(0, 7), (5, 9)] := by
  have h := (C5_fixup_first_only "ab&".data [(0, 3)] false (by simp) (by simp)).2.2.1
    0 3 [(5, 9)] ("ab&".data.length) ((trimL (escapeHtml "ab&".data)).length) (by decide)
  rw [h]
  decide

/-! ## Claim C6: output length of the non-excerpt highlighter -/

/-- Counterexample to C6 as stated: on text `" a"` (length 2) with the
non-empty range list `[[0, 0]]`, the facade returns `"a"` (length 1),
shorter than the input text — trimming after escaping can remove
characters. -/
theorem C6_length_counterexample :
    highlightTextRangesL " a".data [(0, 0)] false = .ok "a".data ∧
    ("a".data.length < " a".data.length) := by
  constructor
  · rfl
  · decide

theorem highlightGo_length (text : List Char) (rs : List Range) :
    ∀ lastIndex : Int,
      text.length - jsClamp lastIndex text.length ≤ (highlightGo text lastIndex rs).length := by
  induction rs with
  | nil =>
    intro lastIndex
    unfold highlightGo jsSliceFrom
    rw [jsSlice_length]
    have h1 := jsClamp_le (text.length : Int) text.length
    have h2 : jsClamp (text.length : Int) text.length = text.length := by
      unfold jsClamp; split <;> omega
    omega
  | cons r rest ih =>
    intro lastIndex
    unfold highlightGo
    split
    · exact ih lastIndex
    · have h1 := ih r.2
      simp only [List.length_append, jsSlice_length]
      have h2 := jsClamp_le r.1 text.length
      have h3 := jsClamp_le r.2 text.length
      have h4 := jsClamp_le lastIndex text.length
      omega

/-- C6, amended.  For every non-empty text and non-empty range list the
facade (non-excerpt mode) succeeds and its output is at least as long as
the escaped-and-trimmed text that the highlighter operates on (markers only
add characters; the shortfall against the raw input in the counterexample
comes solely from the `trim` after escaping). -/
theorem C6_length_amended (t : List Char) (rs : List Range) (h1 : t ≠ []) (h2 : rs ≠ []) :
    ∃ out, highlightTextRangesL t rs false = .ok out ∧
      (trimL (escapeHtml t)).length ≤ out.length := by
  have hmain : highlightTextRangesL t rs false =
      .ok (highlightText (trimL (escapeHtml t))
            (applyEndFixup (processRanges rs) t.length (trimL (escapeHtml t)).length)) :=
    facade_ok t rs false h1 h2
  refine ⟨_, hmain, ?_⟩
  unfold highlightText
  split
  · next hsp =>
    rcases hsp with hu | hp
    · simp [hu]
    · exact absurd hp (applyEndFixup_ne_nil _ _ _ (processRanges_ne_nil rs h2))
  · have h := highlightGo_length (trimL (escapeHtml t))
      (applyEndFixup (processRanges rs) t.length (trimL (escapeHtml t)).length) 0
    rw [jsClamp_zero] at h
    omega

/-- Witness for the amended C6: on `" a"` with range `[[0, 0]]` the output
`"a"` has length 1 ≥ 1, the length of the escaped-and-trimmed text. -/
theorem C6_length_amended_witness :
    ∃ out, highlightTextRangesL " a".data [(0, 0)] false = .ok out ∧
      (trimL (escapeHtml " a".data)).length ≤ out.length :=
  C6_length_amended " a".data [(0, 0)] (by simp) (by simp)

/-! ## Claim C1: invariants after the normalization pipeline -/

theorem normalizeRanges_fst_le_snd (rs : List Range) :
    ∀ r ∈ normalizeRanges rs, r.1 ≤ r.2 := by
  intro r hr
  unfold normalizeRanges at hr
  have hm := (List.perm_insertionSort rangeLE _).mem_iff.mp hr
  obtain ⟨x, _, rfl⟩ := List.mem_map.mp hm
  exact min_le_max

theorem normalizeRanges_sorted (rs : List Range) :
    (normalizeRanges rs).Pairwise rangeLE :=
  List.sorted_insertionSort rangeLE _

theorem removeDuplicatesAux_sublist (l : List Range) :
    ∀ seen, List.Sublist (removeDuplicatesAux seen l) l := by
  induction l with
  | nil => intro seen; simp [removeDuplicatesAux]
  | cons r rest ih =>
    intro seen
    unfold removeDuplicatesAux
    split
    · exact (ih seen).cons r
    · exact (ih (r :: seen)).cons₂ r

theorem removeDuplicatesAux_nodup (l : List Range) :
    ∀ seen, (∀ r ∈ removeDuplicatesAux seen l, r ∉ seen) ∧
      (removeDuplicatesAux seen l).Nodup := by
  induction l with
  | nil => intro seen; simp [removeDuplicatesAux]
  | cons r rest ih =>
    intro seen
    unfold removeDuplicatesAux
    split
    · next hin =>
      exact ⟨(ih seen).1, (ih seen).2⟩
    · next hout =>
      constructor
      · intro x hx
        rcases List.mem_cons.mp hx with rfl | hx'
        · exact hout
        · intro hxs
          exact (ih (r :: seen)).1 x hx' (List.mem_cons_of_mem r hxs)
      · rw [List.nodup_cons]
        refine ⟨?_, (ih (r :: seen)).2⟩
        intro hr
        exact (ih (r :: seen)).1 r hr (List.mem_cons_self r seen)

/-- Recursive reformulation of the `reduce` in `mergeRanges`: carry the
last merged range separately. -/
def mergeRecGo (cur : Range) : List Range → List Range
  | [] => [cur]
  | r :: rest =>
    if r.1 ≤ cur.2 then mergeRecGo (cur.1, max cur.2 r.2) rest
    else cur :: mergeRecGo r rest

theorem foldl_mergeStep_eq (l : List Range) :
    ∀ (done : List Range) (cur : Range),
      List.foldl mergeStep (done ++ [cur]) l = done ++ mergeRecGo cur l := by
  induction l with
  | nil => intro done cur; simp [mergeRecGo]
  | cons r rest ih =>
    intro done cur
    rw [List.foldl_cons]
    have hstep : mergeStep (done ++ [cur]) r =
        if r.1 ≤ cur.2 then done ++ [(cur.1, max cur.2 r.2)]
        else (done ++ [cur]) ++ [r] := by
      unfold mergeStep
      rw [List.getLast?_concat]
      simp only [List.dropLast_concat]
    rw [hstep]
    unfold mergeRecGo
    split
    · exact ih done (cur.1, max cur.2 r.2)
    · rw [ih (done ++ [cur]) r, List.append_assoc]
      rfl

theorem mergeRanges_cons (r : Range) (rest : List Range) :
    mergeRanges (r :: rest) = mergeRecGo r rest := by
  unfold mergeRanges
  rw [if_neg (by simp)]
  rw [List.foldl_cons]
  have h1 : mergeStep [] r = [] ++ [r] := by unfold mergeStep; simp
  rw [h1, foldl_mergeStep_eq rest [] r]
  rfl

theorem mergeRecGo_head (l : List Range) :
    ∀ cur : Range, ∃ e2 tl, mergeRecGo cur l = (cur.1, e2) :: tl ∧ cur.2 ≤ e2 := by
  induction l with
  | nil => intro cur; exact ⟨cur.2, [], by simp [mergeRecGo], le_refl _⟩
  | cons r rest ih =>
    intro cur
    unfold mergeRecGo
    split
    · obtain ⟨e2, tl, heq, hle⟩ := ih (cur.1, max cur.2 r.2)
      exact ⟨e2, tl, heq, le_trans (le_max_left _ _) hle⟩
    · exact ⟨cur.2, mergeRecGo r rest, by simp, le_refl _⟩

theorem mergeRecGo_spec (l : List Range) :
    ∀ cur : Range, cur.1 ≤ cur.2 → (∀ r ∈ l, r.1 ≤ r.2) → (∀ r ∈ l, cur.1 ≤ r.1) →
      l.Pairwise rangeLE →
      (∀ r ∈ mergeRecGo cur l, r.1 ≤ r.2 ∧ cur.1 ≤ r.1) ∧
        (mergeRecGo cur l).Chain' (fun a b => a.2 < b.1) := by
  induction l with
  | nil =>
    intro cur hcur _ _ _
    refine ⟨?_, by simp [mergeRecGo]⟩
    intro r hr
    have hrc : r = cur := by simpa [mergeRecGo] using hr
    subst hrc
    exact ⟨hcur, le_refl _⟩
  | cons r rest ih =>
    intro cur hcur hse hstart hpw
    obtain ⟨hr_rest, hrest⟩ := List.pairwise_cons.mp hpw
    have hrse : r.1 ≤ r.2 := hse r (List.mem_cons_self r rest)
    have hcurr : cur.1 ≤ r.1 := hstart r (List.mem_cons_self r rest)
    have hrestse : ∀ x ∈ rest, x.1 ≤ x.2 := fun x hx => hse x (List.mem_cons_of_mem r hx)
    have hrle : ∀ x ∈ rest, r.1 ≤ x.1 := by
      intro x hx
      rcases hr_rest x hx with h | ⟨h, _⟩
      · exact le_of_lt h
      · exact le_of_eq h
    unfold mergeRecGo
    split
    · next hle =>
      have h1 : (cur.1, max cur.2 r.2).1 ≤ (cur.1, max cur.2 r.2).2 := by
        simp; left; exact hcur
      have h3 : ∀ x ∈ rest, (cur.1, max cur.2 r.2).1 ≤ x.1 := by
        intro x hx; exact le_trans hcurr (hrle x hx)
      exact ih (cur.1, max cur.2 r.2) h1 hrestse h3 hrest
    · next hgt =>
      have hspec := ih r hrse hrestse hrle hrest
      constructor
      · intro x hx
        rcases List.mem_cons.mp hx with rfl | hx'
        · exact ⟨hcur, le_refl _⟩
        · exact ⟨(hspec.1 x hx').1, le_trans hcurr (hspec.1 x hx').2⟩
      · rw [List.chain'_cons']
        constructor
        · intro b hb
          obtain ⟨e2, tl, heq, _⟩ := mergeRecGo_head rest r
          rw [heq] at hb
          simp only [List.head?_cons, Option.mem_def, Option.some.injEq] at hb
          rw [← hb]
          simpa using lt_of_not_le hgt
        · exact hspec.2

theorem processRanges_spec (rs : List Range) :
    (∀ r ∈ processRanges rs, r.1 ≤ r.2) ∧
      (processRanges rs).Chain' (fun a b => a.2 < b.1) := by
  unfold processRanges
  have hsub := removeDuplicatesAux_sublist (normalizeRanges rs) []
  have hse : ∀ r ∈ removeDuplicates (normalizeRanges rs), r.1 ≤ r.2 := by
    intro r hr
    exact normalizeRanges_fst_le_snd rs r (hsub.mem hr)
  have hpw : (removeDuplicates (normalizeRanges rs)).Pairwise rangeLE :=
    (normalizeRanges_sorted rs).sublist hsub
  rcases hd : removeDuplicates (normalizeRanges rs) with _ | ⟨r, rest⟩
  · simp [mergeRanges]
  · rw [mergeRanges_cons]
    rw [hd] at hse hpw
    obtain ⟨hr_rest, hrest⟩ := List.pairwise_cons.mp hpw
    refine ?_
    have h := mergeRecGo_spec rest r (hse r (List.mem_cons_self r rest))
      (fun x hx => hse x (List.mem_cons_of_mem r hx))
      (fun x hx => by rcases hr_rest x hx with h | ⟨h, _⟩; exacts [le_of_lt h, le_of_eq h])
      hrest
    exact ⟨fun x hx => (h.1 x hx).1, h.2⟩

theorem chain_lt_head (l : List Range) :
    ∀ a : Range, (a :: l).Chain' (fun a b => a.2 < b.1) →
      (∀ r ∈ a :: l, r.1 ≤ r.2) → ∀ b ∈ l, a.2 < b.1 := by
  induction l with
  | nil => intro a _ _ b hb; simp at hb
  | cons c l' ih =>
    intro a hch hse b hb
    have hac : a.2 < c.1 := (List.chain'_cons.mp hch).1
    rcases List.mem_cons.mp hb with rfl | hb'
    · exact hac
    · have hcse : c.1 ≤ c.2 := hse c (by simp)
      have := ih c (List.chain'_cons.mp hch).2
        (fun r hr => hse r (List.mem_cons_of_mem a hr)) b hb'
      omega

theorem chain_lt_pairwise (l : List Range) :
    l.Chain' (fun a b => a.2 < b.1) → (∀ r ∈ l, r.1 ≤ r.2) →
      l.Pairwise (fun a b => a.2 < b.1) := by
  induction l with
  | nil => intro _ _; exact List.Pairwise.nil
  | cons a l' ih =>
    intro hch hse
    rw [List.pairwise_cons]
    constructor
    · exact chain_lt_head l' a hch hse
    · exact ih hch.tail (fun r hr => hse r (List.mem_cons_of_mem a hr))

/-- C1.  After the full pipeline (order endpoints, sort, dedupe, merge)
every range satisfies `start ≤ end`, the result is sorted ascending by
start then end, contains no duplicate, and consecutive ranges satisfy
`start[i+1] > end[i]` (no overlap and no touching). -/
theorem C1_pipeline_invariants (rs : List Range) :
    (∀ r ∈ processRanges rs, r.1 ≤ r.2) ∧
    (processRanges rs).Pairwise rangeLE ∧
    (processRanges rs).Nodup ∧
    (processRanges rs).Chain' (fun a b => a.2 < b.1) := by
  obtain ⟨hse, hch⟩ := processRanges_spec rs
  have hpl := chain_lt_pairwise (processRanges rs) hch hse
  refine ⟨hse, ?_, ?_, hch⟩
  · refine hpl.imp_of_mem ?_
    intro a b ha hb hab
    have := hse a ha
    left; omega
  · refine hpl.imp_of_mem ?_
    intro a b ha hb hab
    intro hc
    have h1 := hse a ha
    rw [hc] at h1 hab
    omega

/-! ## Claim C9: idempotence of the pipeline -/

theorem map_minmax_eq_self (l : List Range) (h : ∀ r ∈ l, r.1 ≤ r.2) :
    l.map (fun r => (min r.1 r.2, max r.1 r.2)) = l := by
  induction l with
  | nil => rfl
  | cons r rest ih =>
    have hr := h r (List.mem_cons_self r rest)
    rw [List.map_cons, ih (fun x hx => h x (List.mem_cons_of_mem r hx))]
    congr 1
    rw [min_eq_left hr, max_eq_right hr]

theorem removeDuplicatesAux_of_nodup (l : List Range) :
    ∀ seen, l.Nodup → (∀ r ∈ l, r ∉ seen) → removeDuplicatesAux seen l = l := by
  induction l with
  | nil => intro seen _ _; rfl
  | cons r rest ih =>
    intro seen hnd hns
    unfold removeDuplicatesAux
    rw [if_neg (hns r (List.mem_cons_self r rest))]
    congr 1
    apply ih (r :: seen) (List.nodup_cons.mp hnd).2
    intro x hx hmem
    rcases List.mem_cons.mp hmem with hxr | hxs
    · exact (List.nodup_cons.mp hnd).1 (hxr ▸ hx)
    · exact hns x (List.mem_cons_of_mem r hx) hxs

theorem mergeRecGo_of_chain (l : List Range) :
    ∀ cur, (cur :: l).Chain' (fun a b => a.2 < b.1) → mergeRecGo cur l = cur :: l := by
  induction l with
  | nil => intro cur _; rfl
  | cons r rest ih =>
    intro cur hch
    have h1 : cur.2 < r.1 := (List.chain'_cons.mp hch).1
    unfold mergeRecGo
    rw [if_neg (by omega)]
    rw [ih r (List.chain'_cons.mp hch).2]

/-- C9.  The pipeline (order endpoints, sort, dedupe, merge) is
idempotent: applying it to its own output returns that output. -/
theorem C9_pipeline_idempotent (rs : List Range) :
    processRanges (processRanges rs) = processRanges rs := by
  obtain ⟨hse, hch⟩ := processRanges_spec rs
  have hpl := chain_lt_pairwise _ hch hse
  have hsorted : (processRanges rs).Pairwise rangeLE := by
    refine hpl.imp_of_mem ?_
    intro a b ha hb hab
    have := hse a ha
    left; omega
  have hnodup : (processRanges rs).Nodup := by
    refine hpl.imp_of_mem ?_
    intro a b ha hb hab hc
    have h1 := hse a ha
    rw [hc] at h1 hab
    omega
  have hnorm : normalizeRanges (processRanges rs) = processRanges rs := by
    unfold normalizeRanges
    rw [map_minmax_eq_self _ hse]
    exact List.Sorted.insertionSort_eq hsorted
  have hdedup : removeDuplicates (processRanges rs) = processRanges rs := by
    unfold removeDuplicates
    exact removeDuplicatesAux_of_nodup _ [] hnodup (by simp)
  have hmerge : mergeRanges (processRanges rs) = processRanges rs := by
    rcases hp : processRanges rs with _ | ⟨r, rest⟩
    · rfl
    · rw [mergeRanges_cons]
      apply mergeRecGo_of_chain
      rw [← hp]
      exact hch
  show mergeRanges (removeDuplicates (normalizeRanges (processRanges rs))) = processRanges rs
  rw [hnorm, hdedup, hmerge]

/-! ## Claim C2: the HTML escaper -/

/-- The five characters replaced by `escapeHtml`. -/
def specialChars : List Char := ['&', '<', '>', '"', aposC]

theorem beginsWith_append_self (p r : List Char) : beginsWith p (p ++ r) = true := by
  induction p with
  | nil => rfl
  | cons c cs ih => simp [beginsWith, ih]

theorem append_eq_append_cons_split {α : Type} (a b pre suf : List α) (x : α)
    (h : a ++ b = pre ++ x :: suf) :
    (∃ mid, a = pre ++ x :: mid ∧ suf = mid ++ b) ∨
    (∃ pre2, pre = a ++ pre2 ∧ b = pre2 ++ x :: suf) := by
  rcases List.append_eq_append_iff.mp h with ⟨a2, hpre, hb⟩ | ⟨c2, ha, hd⟩
  · exact Or.inr ⟨a2, hpre, hb⟩
  · cases c2 with
    | nil =>
      simp only [List.append_nil] at ha
      simp only [List.nil_append] at hd
      exact Or.inr ⟨[], by simp [ha], by simp [hd]⟩
    | cons y mid =>
      rw [List.cons_append] at hd
      injection hd with h1 h2
      subst h1
      exact Or.inl ⟨mid, by rw [ha], h2⟩

theorem amp_decomp_unique (tl : List Char) (htail : '&' ∉ tl) :
    ∀ pre mid, ('&' :: tl : List Char) = pre ++ '&' :: mid → pre = [] ∧ mid = tl := by
  intro pre mid h
  cases pre with
  | nil =>
    injection h with _ h2
    exact ⟨rfl, h2.symm⟩
  | cons c pre' =>
    rw [List.cons_append] at h
    injection h with h1 h2
    exfalso
    apply htail
    rw [h2]
    simp

theorem escChar_amp_decomp (c : Char) :
    ∀ pre mid, escChar c = pre ++ '&' :: mid →
      pre = [] ∧ (mid = "amp;".data ∨ mid = "lt;".data ∨ mid = "gt;".data ∨
        mid = "quot;".data ∨ mid = "#39;".data) := by
  intro pre mid h
  unfold escChar at h
  by_cases h1 : c = '&'
  · rw [if_pos h1] at h
    have := amp_decomp_unique "amp;".data (by decide) pre mid h
    exact ⟨this.1, Or.inl this.2⟩
  rw [if_neg h1] at h
  by_cases h2 : c = '<'
  · rw [if_pos h2] at h
    have := amp_decomp_unique "lt;".data (by decide) pre mid h
    exact ⟨this.1, Or.inr (Or.inl this.2)⟩
  rw [if_neg h2] at h
  by_cases h3 : c = '>'
  · rw [if_pos h3] at h
    have := amp_decomp_unique "gt;".data (by decide) pre mid h
    exact ⟨this.1, Or.inr (Or.inr (Or.inl this.2))⟩
  rw [if_neg h3] at h
  by_cases h4 : c = '"'
  · rw [if_pos h4] at h
    have := amp_decomp_unique "quot;".data (by decide) pre mid h
    exact ⟨this.1, Or.inr (Or.inr (Or.inr (Or.inl this.2)))⟩
  rw [if_neg h4] at h
  by_cases h5 : c = aposC
  · rw [if_pos h5] at h
    have := amp_decomp_unique "#39;".data (by decide) pre mid h
    exact ⟨this.1, Or.inr (Or.inr (Or.inr (Or.inr this.2)))⟩
  rw [if_neg h5] at h
  exfalso
  cases pre with
  | nil =>
    injection h with h6 _
    exact h1 h6
  | cons y pre' =>
    rw [List.cons_append] at h
    injection h with _ h7
    exact List.not_mem_nil '&' (h7 ▸ List.mem_append_right pre' (List.mem_cons_self _ _))

theorem escChar_eq_self (c : Char) (hc : c ∉ specialChars) : escChar c = [c] := by
  simp only [specialChars, List.mem_cons, List.not_mem_nil, or_false] at hc
  push_neg at hc
  obtain ⟨h1, h2, h3, h4, h5⟩ := hc
  unfold escChar
  rw [if_neg h1, if_neg h2, if_neg h3, if_neg h4, if_neg h5]

theorem escapeHtml_cons (c : Char) (rest : List Char) :
    escapeHtml (c :: rest) = escChar c ++ escapeHtml rest := rfl

theorem escapeHtml_no_badfour (t : List Char) :
    ∀ c ∈ escapeHtml t, ¬(c = '<' ∨ c = '>' ∨ c = '"' ∨ c = aposC) := by
  induction t with
  | nil => simp [escapeHtml]
  | cons x rest ih =>
    intro c hc
    rw [escapeHtml_cons] at hc
    rcases List.mem_append.mp hc with h | h
    · by_cases hx : x ∈ specialChars
      · simp only [specialChars, List.mem_cons, List.not_mem_nil, or_false] at hx
        rcases hx with rfl | rfl | rfl | rfl | rfl
        · rw [show escChar '&' = ['&', 'a', 'm', 'p', ';'] from by decide] at h
          fin_cases h <;> decide
        · rw [show escChar '<' = ['&', 'l', 't', ';'] from by decide] at h
          fin_cases h <;> decide
        · rw [show escChar '>' = ['&', 'g', 't', ';'] from by decide] at h
          fin_cases h <;> decide
        · rw [show escChar '"' = ['&', 'q', 'u', 'o', 't', ';'] from by decide] at h
          fin_cases h <;> decide
        · rw [show escChar aposC = ['&', '#', '3', '9', ';'] from by decide] at h
          fin_cases h <;> decide
      · rw [escChar_eq_self x hx] at h
        have hcx : c = x := List.mem_singleton.mp h
        subst hcx
        intro hbad
        apply hx
        rcases hbad with h | h | h | h <;> subst h <;> decide
    · exact ih c h

theorem escapeHtml_amp_entity (t : List Char) :
    ∀ pre suf, escapeHtml t = pre ++ '&' :: suf →
      (beginsWith "amp;".data suf ∨ beginsWith "lt;".data suf ∨ beginsWith "gt;".data suf ∨
       beginsWith "quot;".data suf ∨ beginsWith "#39;".data suf) := by
  induction t with
  | nil =>
    intro pre suf h
    exfalso
    have := congrArg List.length h
    simp [escapeHtml] at this
    omega
  | cons x rest ih =>
    intro pre suf h
    rw [escapeHtml_cons] at h
    rcases append_eq_append_cons_split _ _ _ _ _ h with ⟨mid, hx, hsuf⟩ | ⟨pre2, _, hrest⟩
    · obtain ⟨-, hmid⟩ := escChar_amp_decomp x pre mid hx
      subst hsuf
      rcases hmid with rfl | rfl | rfl | rfl | rfl
      · exact Or.inl (beginsWith_append_self _ _)
      · exact Or.inr (Or.inl (beginsWith_append_self _ _))
      · exact Or.inr (Or.inr (Or.inl (beginsWith_append_self _ _)))
      · exact Or.inr (Or.inr (Or.inr (Or.inl (beginsWith_append_self _ _))))
      · exact Or.inr (Or.inr (Or.inr (Or.inr (beginsWith_append_self _ _))))
    · exact ih pre2 suf hrest

/-- C2.  `escapeHtml` maps each of the five special characters to its named
entity and leaves every other character unchanged (character-wise pass);
consequently its output never contains a literal `<`, `>`, `"` or `'`, and
every `&` in the output starts one of the five entities. -/
theorem C2_escape_correct (t : List Char) :
    escapeHtml t = (t.map escChar).flatten ∧
    escChar '&' = "&amp;".data ∧ escChar '<' = "&lt;".data ∧ escChar '>' = "&gt;".data ∧
    escChar '"' = "&quot;".data ∧ escChar aposC = "&#39;".data ∧
    (∀ c : Char, c ∉ specialChars → escChar c = [c]) ∧
    (∀ c ∈ escapeHtml t, ¬(c = '<' ∨ c = '>' ∨ c = '"' ∨ c = aposC)) ∧
    (∀ pre suf, escapeHtml t = pre ++ '&' :: suf →
      (beginsWith "amp;".data suf ∨ beginsWith "lt;".data suf ∨ beginsWith "gt;".data suf ∨
       beginsWith "quot;".data suf ∨ beginsWith "#39;".data suf)) :=
  ⟨rfl, by decide, by decide, by decide, by decide, by decide,
   escChar_eq_self, escapeHtml_no_badfour t, escapeHtml_amp_entity t⟩

/-- Witness for C2 on `"a&b"`: the unescaped character survives, the bad
characters are absent, and the single `&` of the output starts `&amp;`. -/
theorem C2_escape_correct_witness :
    escChar 'x' = ['x'] ∧
    (¬('a' = '<' ∨ 'a' = '>' ∨ 'a' = '"' ∨ 'a' = aposC)) ∧
    (beginsWith "amp;".data "amp;b".data ∨ beginsWith "lt;".data "amp;b".data ∨
     beginsWith "gt;".data "amp;b".data ∨ beginsWith "quot;".data "amp;b".data ∨
     beginsWith "#39;".data "amp;b".data) := by
  refine ⟨?_, ?_, ?_⟩
  · exact (C2_escape_correct []).2.2.2.2.2.2.1 'x' (by decide)
  · exact (C2_escape_correct "a".data).2.2.2.2.2.2.2.1 'a' (by decide)
  · exact (C2_escape_correct "a&b".data).2.2.2.2.2.2.2.2 "a".data "amp;b".data (by decide)

/-! ## Claim C7: excerpt assembly and leading-ellipsis rewrite -/

theorem combineContextsAux_eq (l : List ExtractedSegment) :
    ∀ cur, combineContextsAux cur l =
      cur ++ (l.map (fun s => stripLeadingEllipsis s.context)).flatten := by
  induction l with
  | nil => intro cur; simp [combineContextsAux]
  | cons t rest ih =>
    intro cur
    rw [show combineContextsAux cur (t :: rest) =
        cur ++ combineContextsAux (stripLeadingEllipsis t.context) rest from rfl]
    rw [ih]
    simp

theorem stripLeadingEllipsis_ellipsis (c : Char) (s : List Char) (h : isWs c = false) :
    stripLeadingEllipsis ("[...] ".data ++ c :: s) = ' ' :: c :: s := by
  have heq : ("[...] ".data ++ c :: s) = '[' :: '.' :: '.' :: '.' :: ']' :: ' ' :: c :: s := rfl
  have h2 : stripLeadingEllipsis ('[' :: '.' :: '.' :: '.' :: ']' :: ' ' :: c :: s) =
      ' ' :: List.dropWhile isWs (c :: s) := rfl
  rw [heq, h2]
  simp [List.dropWhile_cons, h]

/-- C7.  The excerpt is the trimmed concatenation of segment contexts in
which every segment after the first has its leading ellipsis marker
rewritten, and the rewrite turns a leading `"[...] "` into a single
leading space. -/
theorem C7_excerpt_assembly (text : List Char) (rs : List Range)
    (h1 : text ≠ []) (h2 : rs ≠ []) :
    excerptHighlighting text rs = trimL (combineContexts (mkSegments text rs)) ∧
    (∀ (s : ExtractedSegment) (rest : List ExtractedSegment),
      combineContexts (s :: rest) =
        s.context ++ (rest.map (fun t => stripLeadingEllipsis t.context)).flatten) ∧
    (∀ (c : Char) (tl : List Char), isWs c = false →
      stripLeadingEllipsis ("[...] ".data ++ c :: tl) = ' ' :: c :: tl) := by
  refine ⟨?_, ?_, stripLeadingEllipsis_ellipsis⟩
  · unfold excerptHighlighting
    rw [if_neg (by push_neg; exact ⟨h1, h2⟩)]
  · intro s rest
    show combineContextsAux s.context rest = _
    rw [combineContextsAux_eq]

/-- Witness for C7 at a concrete two-range excerpt and a concrete
leading-ellipsis context. -/
theorem C7_excerpt_assembly_witness :
    excerptHighlighting "ab cd ef".data [(0, 2), (6, 8)] =
      trimL (combineContexts (mkSegments "ab cd ef".data [(0, 2), (6, 8)])) ∧
    stripLeadingEllipsis ("[...] ".data ++ 'x' :: []) = ' ' :: 'x' :: [] := by
  have h := C7_excerpt_assembly "ab cd ef".data [(0, 2), (6, 8)] (by simp) (by simp)
  exact ⟨h.1, h.2.2 'x' [] (by decide)⟩

/-! ## Claim C8: `hasMoreContent` and the trailing ellipsis -/

theorem jsIndexOfAux_spec (pat : List Char) (s : List Char) :
    ∀ i j, jsIndexOfAux pat s i = some j →
      i ≤ j ∧ beginsWith pat (s.drop (j - i)) = true ∧
        ∀ k, i ≤ k → k < j → beginsWith pat (s.drop (k - i)) = false := by
  induction s with
  | nil =>
    intro i j h
    unfold jsIndexOfAux at h
    split at h
    · next hb =>
      injection h with h1
      subst h1
      exact ⟨le_refl _, by simpa using hb, fun k hk1 hk2 => absurd hk1 (by omega)⟩
    · exact absurd h (by simp)
  | cons c rest ih =>
    intro i j h
    unfold jsIndexOfAux at h
    split at h
    · next hb =>
      injection h with h1
      subst h1
      exact ⟨le_refl _, by simpa using hb, fun k hk1 hk2 => absurd hk1 (by omega)⟩
    · next hb =>
      obtain ⟨ha, hc, hd⟩ := ih (i + 1) j h
      refine ⟨by omega, ?_, ?_⟩
      · have hdrop : (c :: rest).drop (j - i) = rest.drop (j - (i + 1)) := by
          have hji : j - i = (j - (i + 1)) + 1 := by omega
          rw [hji, List.drop_succ_cons]
        rw [hdrop]
        exact hc
      · intro k hk1 hk2
        rcases Nat.eq_or_lt_of_le hk1 with rfl | hk
        · simp only [Nat.sub_self, List.drop_zero]
          exact Bool.not_eq_true _ ▸ Bool.eq_false_iff.mpr hb
        · have hdrop : (c :: rest).drop (k - i) = rest.drop (k - (i + 1)) := by
            have hki : k - i = (k - (i + 1)) + 1 := by omega
            rw [hki, List.drop_succ_cons]
          rw [hdrop]
          exact hd k hk hk2

theorem jsIndexOf_spec (text pat : List Char) (frm : Int) (j : Nat)
    (h : jsIndexOf text pat frm = some j) :
    jsClampPos frm text.length ≤ j ∧ beginsWith pat (text.drop j) = true ∧
      ∀ k, jsClampPos frm text.length ≤ k → k < j → beginsWith pat (text.drop k) = false := by
  unfold jsIndexOf at h
  obtain ⟨h1, h3, h4⟩ := jsIndexOfAux_spec pat _ _ _ h
  refine ⟨h1, ?_, ?_⟩
  · have hd : (text.drop (jsClampPos frm text.length)).drop (j - jsClampPos frm text.length) =
        text.drop j := by
      rw [List.drop_drop]
      congr 1
      omega
    rw [hd] at h3
    exact h3
  · intro k hk1 hk2
    have hd : (text.drop (jsClampPos frm text.length)).drop (k - jsClampPos frm text.length) =
        text.drop k := by
      rw [List.drop_drop]
      congr 1
      omega
    have hres := h4 k hk1 hk2
    rw [hd] at hres
    exact hres

theorem mem_dropWhile_of_not_ws (l : List Char) (c : Char) (hc : c ∈ l)
    (hw : isWs c = false) : c ∈ l.dropWhile isWs := by
  induction l with
  | nil => simp at hc
  | cons x rest ih =>
    rw [List.dropWhile_cons]
    by_cases hx : isWs x = true
    · rw [if_pos hx]
      rcases List.mem_cons.mp hc with rfl | hc'
      · rw [hx] at hw
        simp at hw
      · exact ih hc'
    · rw [if_neg (by simpa using hx)]
      exact hc

theorem trimL_eq_nil_iff (l : List Char) :
    trimL l = [] ↔ ∀ c ∈ l, isWs c = true := by
  constructor
  · intro h c hc
    by_contra hnc
    have hw : isWs c = false := by simpa using hnc
    have h1 : c ∈ l.dropWhile isWs := mem_dropWhile_of_not_ws l c hc hw
    have h2 : c ∈ (l.dropWhile isWs).reverse := List.mem_reverse.mpr h1
    have h3 : c ∈ ((l.dropWhile isWs).reverse).dropWhile isWs :=
      mem_dropWhile_of_not_ws _ c h2 hw
    unfold trimL at h
    rw [List.reverse_eq_nil_iff] at h
    rw [h] at h3
    simp at h3
  · intro h
    unfold trimL
    rw [List.reverse_eq_nil_iff, List.dropWhile_eq_nil_iff]
    intro c hc
    exact h c ((List.dropWhile_sublist isWs).subset (List.mem_reverse.mp hc))

theorem trimL_length_pos_iff (l : List Char) :
    0 < (trimL l).length ↔ l.any (fun c => !isWs c) = true := by
  rw [List.length_pos, Ne, trimL_eq_nil_iff, List.any_eq_true]
  constructor
  · intro h
    by_contra hc
    push_neg at hc
    apply h
    intro c hcl
    have := hc c hcl
    simpa using this
  · rintro ⟨c, hcl, hcw⟩ hall
    have := hall c hcl
    rw [this] at hcw
    simp at hcw

/-- C8.  `hasMoreContent` is true exactly when `next` exists and
non-whitespace text remains after the first occurrence of the `next`
string searched forward from the range's end (first-occurrence semantics
of `indexOf` included); when it is true, `" [...] "` is appended to the
raw context before whitespace collapsing and trimming. -/
theorem C8_hasMoreContent (text : List Char) (r : Range) (i : Nat) :
    (hasMoreContent text r = true ↔
      ∃ n, segNext text r = some n ∧
        (jsSliceFrom text (jsIndexOfInt text n r.2 + n.length)).any (fun c => !isWs c) = true) ∧
    (∀ pat frm (j : Nat), jsIndexOf text pat frm = some j →
      jsClampPos frm text.length ≤ j ∧ beginsWith pat (text.drop j) = true ∧
        ∀ k, jsClampPos frm text.length ≤ k → k < j → beginsWith pat (text.drop k) = false) ∧
    (extractTextSegment text r i).context =
      trimL (collapseWs (rawContext text r i ++
        (if hasMoreContent text r then " [...] ".data else []))) := by
  refine ⟨?_, fun pat frm j h => jsIndexOf_spec text pat frm j h, rfl⟩
  unfold hasMoreContent
  rcases hn : segNext text r with _ | n
  · simp
  · simp only [decide_eq_true_eq]
    rw [trimL_length_pos_iff]
    constructor
    · intro h
      exact ⟨n, rfl, h⟩
    · rintro ⟨n', hn', h⟩
      injection hn' with h2
      subst h2
      exact h

/-- Witness for C8 on text `"ab ab x"` with range `[0, 2]`: `next` is
`"ab"`, its first occurrence from offset 2 is at index 3, and the
non-whitespace `"x"` after it makes `hasMoreContent` true. -/
theorem C8_hasMoreContent_witness :
    hasMoreContent "ab ab x".data (0, 2) = true ∧
    (jsClampPos 2 "ab ab x".data.length ≤ 3 ∧
      beginsWith "ab".data ("ab ab x".data.drop 3) = true ∧
      ∀ k, jsClampPos 2 "ab ab x".data.length ≤ k → k < 3 →
        beginsWith "ab".data ("ab ab x".data.drop k) = false) := by
  have h := C8_hasMoreContent "ab ab x".data (0, 2) 0
  constructor
  · exact h.1.mpr ⟨"ab".data, by decide, by decide⟩
  · exact h.2.1 "ab".data 2 3 (by decide)

/-! ## Claim C10: deleting the markers recovers the text -/

/-- Deletion of every occurrence of the substrings `<em>` and `</em>`, in
one left-to-right pass (occurrences are non-overlapping, so this is the
same as repeated replacement by the empty string). -/
def stripEmTags : List Char → List Char
  | [] => []
  | c :: rest =>
    if beginsWith "<em>".data (c :: rest) then stripEmTags (rest.drop 3)
    else if beginsWith "</em>".data (c :: rest) then stripEmTags (rest.drop 4)
    else c :: stripEmTags rest
termination_by s => s.length
decreasing_by
  · simp [List.length_drop]
    omega
  · simp [List.length_drop]
    omega
  · simp

theorem stripEmTags_nil : stripEmTags [] = [] := by
  simp [stripEmTags]

theorem stripEmTags_em (rest : List Char) :
    stripEmTags ("<em>".data ++ rest) = stripEmTags rest := by
  show stripEmTags ('<' :: 'e' :: 'm' :: '>' :: rest) = stripEmTags rest
  simp only [stripEmTags]
  rw [if_pos (by simp [beginsWith])]
  rfl

theorem stripEmTags_close (rest : List Char) :
    stripEmTags ("</em>".data ++ rest) = stripEmTags rest := by
  show stripEmTags ('<' :: '/' :: 'e' :: 'm' :: '>' :: rest) = stripEmTags rest
  simp only [stripEmTags]
  rw [if_neg (by simp [beginsWith]), if_pos (by simp [beginsWith])]
  rfl

theorem stripEmTags_cons_ne (c : Char) (rest : List Char) (h : c ≠ '<') :
    stripEmTags (c :: rest) = c :: stripEmTags rest := by
  simp only [stripEmTags]
  rw [if_neg (by simp [beginsWith, Ne.symm h]), if_neg (by simp [beginsWith, Ne.symm h])]

theorem stripEmTags_append_no_lt (a b : List Char) (ha : '<' ∉ a) :
    stripEmTags (a ++ b) = a ++ stripEmTags b := by
  induction a with
  | nil => simp
  | cons c a' ih =>
    have hc : c ≠ '<' := fun h => ha (h ▸ List.mem_cons_self c a')
    rw [List.cons_append, stripEmTags_cons_ne c (a' ++ b) hc,
      ih (fun h => ha (List.mem_cons_of_mem c h)), List.cons_append]

theorem stripEmTags_of_no_lt (a : List Char) (ha : '<' ∉ a) : stripEmTags a = a := by
  have h := stripEmTags_append_no_lt a [] ha
  simpa [stripEmTags_nil] using h

theorem jsClamp_int_inbounds (x : Int) (n : Nat) (h0 : 0 ≤ x) (h1 : x ≤ (n : Int)) :
    jsClamp x n = x.toNat := by
  unfold jsClamp
  rw [if_neg (by omega), Nat.min_def]
  split <;> omega

theorem jsSlice_int_inbounds (t : List Char) (a b : Int) (h0 : 0 ≤ a)
    (hab : a ≤ b) (hb : b ≤ (t.length : Int)) :
    jsSlice t a b = (t.take b.toNat).drop a.toNat := by
  unfold jsSlice
  rw [jsClamp_int_inbounds a _ h0 (by omega), jsClamp_int_inbounds b _ (by omega) hb]

theorem take_drop_glue (t : List Char) (a b : Nat) (hab : a ≤ b) :
    (t.take b).drop a ++ t.drop b = t.drop a := by
  conv_rhs => rw [← List.take_append_drop (b - a) (t.drop a)]
  congr 1
  · rw [List.take_drop, Nat.add_sub_cancel' hab]
  · rw [List.drop_drop, Nat.add_sub_cancel' hab]

theorem stripEmTags_highlightGo (t : List Char) (hlt : '<' ∉ t) (rs : List Range) :
    ∀ li : Nat, li ≤ t.length →
      (∀ r ∈ rs, (li : Int) ≤ r.1 ∧ r.1 ≤ r.2 ∧ r.2 ≤ (t.length : Int)) →
      rs.Pairwise (fun a b : Range => a.2 ≤ b.1) →
      stripEmTags (highlightGo t (li : Int) rs) = t.drop li := by
  have hsubset : ∀ (m k : Nat), ('<' : Char) ∉ (t.take k).drop m := by
    intro m k hmem
    exact hlt (List.take_subset k t (List.drop_subset m _ hmem))
  induction rs with
  | nil =>
    intro li hli _ _
    simp only [highlightGo]
    unfold jsSliceFrom
    rw [jsSlice_int_inbounds t _ _ (by omega) (by omega) (by omega)]
    rw [show ((t.length : Int)).toNat = t.length from by omega,
      show ((li : Int)).toNat = li from by omega, List.take_length]
    exact stripEmTags_of_no_lt _ (fun h => hlt (List.drop_subset _ _ h))
  | cons r rest ih =>
    intro li hli hb hpw
    obtain ⟨h1, h2, h3⟩ := hb r (List.mem_cons_self r rest)
    simp only [highlightGo]
    split
    · exact ih li hli (fun x hx => hb x (List.mem_cons_of_mem _ hx))
        (List.pairwise_cons.mp hpw).2
    · have hse : jsSlice t r.1 r.2 = (t.take r.2.toNat).drop r.1.toNat :=
        jsSlice_int_inbounds t r.1 r.2 (by omega) h2 h3
      have hsl : jsSlice t (li : Int) r.1 = (t.take r.1.toNat).drop li := by
        rw [jsSlice_int_inbounds t _ r.1 (by omega) h1 (by omega)]
        congr 1
      have hrest : stripEmTags (highlightGo t r.2 rest) = t.drop r.2.toNat := by
        have hall : ∀ x ∈ rest, ((r.2.toNat : Nat) : Int) ≤ x.1 ∧ x.1 ≤ x.2 ∧
            x.2 ≤ (t.length : Int) := by
          intro x hx
          have hbx := hb x (List.mem_cons_of_mem _ hx)
          have hex := (List.pairwise_cons.mp hpw).1 x hx
          refine ⟨?_, hbx.2.1, hbx.2.2⟩
          omega
        have hgo := ih r.2.toNat (by omega) hall (List.pairwise_cons.mp hpw).2
        rw [show ((r.2.toNat : Nat) : Int) = r.2 from by omega] at hgo
        exact hgo
      rw [hse, hsl]
      rw [List.append_assoc, List.append_assoc, List.append_assoc]
      rw [stripEmTags_append_no_lt _ _ (hsubset li r.1.toNat)]
      rw [stripEmTags_em]
      rw [stripEmTags_append_no_lt _ _ (hsubset r.1.toNat r.2.toNat)]
      rw [stripEmTags_close]
      rw [hrest]
      rw [take_drop_glue t r.1.toNat r.2.toNat (by omega)]
      rw [take_drop_glue t li r.1.toNat (by omega)]

/-- Counterexample to C10 as stated: the empty range list vacuously
satisfies every side condition of the claim, but the highlighter's guard
then returns the empty string, from which no tag deletion can recover a
non-empty text. -/
theorem C10_roundtrip_counterexample :
    ('<' ∉ "a".data ∧ '>' ∉ "a".data ∧
      (∀ r ∈ ([] : List Range), 0 ≤ r.1 ∧ r.1 ≤ r.2 ∧ r.2 ≤ ("a".data.length : Int)) ∧
      ([] : List Range).Pairwise (fun a b : Range => a.2 ≤ b.1)) ∧
    stripEmTags (highlightText "a".data []) ≠ "a".data := by
  refine ⟨⟨by decide, by decide, by simp, List.Pairwise.nil⟩, ?_⟩
  have h1 : highlightText "a".data [] = [] := by simp [highlightText]
  rw [h1, stripEmTags_nil]
  simp

/-- C10, amended.  For every text without `<` or `>` and every *non-empty*
range list that is sorted and pairwise non-overlapping with offsets inside
`[0, length]`, deleting every `<em>` and `</em>` from the non-excerpt
highlighter's output recovers the text exactly.  (The claim's original
universal quantification over all such range lists fails only for the
empty list, where the highlighter's guard returns the empty string.) -/
theorem C10_roundtrip_amended (t : List Char) (rs : List Range)
    (hlt : '<' ∉ t) (_hgt : '>' ∉ t) (hrs : rs ≠ [])
    (hb : ∀ r ∈ rs, 0 ≤ r.1 ∧ r.1 ≤ r.2 ∧ r.2 ≤ (t.length : Int))
    (hpw : rs.Pairwise (fun a b : Range => a.2 ≤ b.1)) :
    stripEmTags (highlightText t rs) = t := by
  unfold highlightText
  split
  · next h =>
    rcases h with h | h
    · rw [h, stripEmTags_nil]
    · exact absurd h hrs
  · have h := stripEmTags_highlightGo t hlt rs 0 (by omega) ?_ hpw
    · rw [show ((0 : Nat) : Int) = (0 : Int) from rfl] at h
      rw [h, List.drop_zero]
    · intro x hx
      have hbx := hb x hx
      refine ⟨?_, hbx.2.1, hbx.2.2⟩
      omega

/-- Witness for the amended C10 on `"ab cd"` with ranges `[[0,2],[3,5]]`. -/
theorem C10_roundtrip_amended_witness :
    stripEmTags (highlightText "ab cd".data [(0, 2), (3, 5)]) = "ab cd".data :=
  C10_roundtrip_amended "ab cd".data [(0, 2), (3, 5)] (by decide) (by decide)
    (by simp) (by decide) (by decide)

end HtmlHighlighting
